import Mathlib

/-!
Verification of the markdown rendering pipeline of `src/app/components/chatbubble.tsx`
(the `MessageBubble` component).  The source functions `hasMarkdown`, `parseMarkdown`,
`parseInlineMarkdown` and `parseTextWithFormatting` are shallowly embedded below over
`List Char`, modelling JavaScript strings as character lists and the JS regex loops as
fuelled scans (every wrapper instantiates the fuel with `length + 1`, which is shown to
be sufficient).
-/

namespace ChatBubble

/-- JS strings are modelled as lists of characters. -/
abbrev Str := List Char

/-- Coerce a Lean string literal to the model type. -/
def toStr (s : String) : Str := s.data

/-- The character set matched by the ECMAScript regex class `\s`
(WhiteSpace together with LineTerminator). -/
def jsSpaceChars : List Char :=
  [' ', '\t', '\n', '\x0b', '\x0c', '\r', '\u00a0', '\u1680', '\u2000', '\u2001',
   '\u2002', '\u2003', '\u2004', '\u2005', '\u2006', '\u2007', '\u2008', '\u2009',
   '\u200a', '\u2028', '\u2029', '\u202f', '\u205f', '\u3000', '\ufeff']

/-- Test for the ECMAScript regex class `\s`. -/
def isJsSpace (c : Char) : Bool := jsSpaceChars.contains c

/-- The ECMAScript regex `.` (without the `s` flag): any character except a
line terminator. -/
def jsDot (c : Char) : Bool :=
  !(c == '\n' || c == '\r' || c == '\u2028' || c == '\u2029')

/-- `strStarts pat s` models `s.startsWith(pat)` / matching `pat` literally at the
start of `s`. -/
def strStarts : Str → Str → Bool
  | [], _ => true
  | _ :: _, [] => false
  | a :: as, b :: bs => a == b && strStarts as bs

/-- `containsStr pat s` models `s.includes(pat)`. -/
def containsStr (pat : Str) : Str → Bool
  | [] => pat.isEmpty
  | c :: rest => strStarts pat (c :: rest) || containsStr pat rest

/-- `slice t a b` models `t.substring(a, b)` for `a ≤ b`. -/
def slice (t : Str) (a b : Nat) : Str := (t.drop a).take (b - a)

/-- `splitLines` models `text.split('\n')`: the result is never empty and the
pieces never contain `'\n'`. -/
def splitLines : Str → List Str
  | [] => [[]]
  | c :: rest =>
    if c == '\n' then [] :: splitLines rest
    else
      match splitLines rest with
      | l :: ls => (c :: l) :: ls
      | [] => [[c]]

/-- Inline emphasis kinds: the three formatting patterns of
`parseTextWithFormatting`. -/
inductive EmphKind where
  | bold
  | italic
  | code
deriving DecidableEq, Repr

/-- Inline spans: the flattened `<Text>` elements produced by
`parseInlineMarkdown` / `parseTextWithFormatting`. -/
inductive Inline where
  | link (text url : Str)
  | styled (text : Str) (kind : EmphKind)
  | plain (text : Str)
deriving DecidableEq, Repr

/-- One regex match of an emphasis pattern: `index` is `match.index`, `len` is
`match[0].length` and `inner` is the captured group `match[1]`. -/
structure EmMatch where
  index : Nat
  len : Nat
  inner : Str
  kind : EmphKind
deriving DecidableEq, Repr

/-- Origin tag of a link candidate (field `type` in the source). -/
inductive LinkType where
  | markdown
  | plain
deriving DecidableEq, Repr

/-- A link candidate found by `parseInlineMarkdown`: half-open offsets
`[start, stop)` into the scanned line, display text, target url and origin. -/
structure LinkCandidate where
  start : Nat
  stop : Nat
  text : Str
  url : Str
  type : LinkType
deriving DecidableEq, Repr

/-- Block-level segments: the element kinds pushed by `parseMarkdown`, plus the
single literal segment of the non-markdown rendering path of `MessageBubble`. -/
inductive Segment where
  | heading (level : Nat) (text : Str)
  | codeBlock (lines : List Str)
  | blockquote (text : Str)
  | bulletItem (spans : List Inline)
  | orderedItem (ordinal : Str) (spans : List Inline)
  | paragraph (spans : List Inline)
  | spacer
  | literal (text : Str)
deriving DecidableEq, Repr

/-- Lazy (ungreedy) search for `(.*?)` followed by the literal delimiter `cls`:
returns the shortest inner text (all `.`-matchable characters) such that `cls`
follows, together with the remainder after the delimiter. -/
def findLazyInner (cls : Str) : Str → Option (Str × Str)
  | [] => if strStarts cls [] then some ([], []) else none
  | c :: rest =>
    if strStarts cls (c :: rest) then some ([], (c :: rest).drop cls.length)
    else if jsDot c then
      (findLazyInner cls rest).map (fun p => (c :: p.1, p.2))
    else none

/-- Attempt to match `opn(.*?)cls` at the head of `s` the way the JS regex
engine does; returns the captured inner text and the total match length. -/
def emMatchAt (opn cls : Str) (s : Str) : Option (Str × Nat) :=
  if strStarts opn s then
    match findLazyInner cls (s.drop opn.length) with
    | some (inner, _) => some (inner, opn.length + inner.length + cls.length)
    | none => none
  else none

/-- The global-regex exec loop for one emphasis pattern: try the pattern at
every position, and continue after the end of each match.  `fuel` bounds the
number of steps; every wrapper passes at least `s.length + 1`. -/
def scanPairsAux (opn cls : Str) (kind : EmphKind) : Nat → Str → Nat → List EmMatch
  | 0, _, _ => []
  | _ + 1, [], _ => []
  | f + 1, c :: rest, pos =>
    match emMatchAt opn cls (c :: rest) with
    | some (inner, len) =>
      ⟨pos, len, inner, kind⟩ :: scanPairsAux opn cls kind f ((c :: rest).drop len) (pos + len)
    | none => scanPairsAux opn cls kind f rest (pos + 1)

/-- All matches of `/\*\*(.*?)\*\*/g` (bold). -/
def scanBoldE (extra : Nat) (t : Str) : List EmMatch :=
  scanPairsAux (toStr "**") (toStr "**") .bold (t.length + 1 + extra) t 0

/-- All matches of `/\*(.*?)\*/g` (italic). -/
def scanItalicE (extra : Nat) (t : Str) : List EmMatch :=
  scanPairsAux (toStr "*") (toStr "*") .italic (t.length + 1 + extra) t 0

/-- All matches of `` /`(.*?)`/g `` (inline code). -/
def scanCodeE (extra : Nat) (t : Str) : List EmMatch :=
  scanPairsAux (toStr "`") (toStr "`") .code (t.length + 1 + extra) t 0

def scanBold (t : Str) : List EmMatch := scanBoldE 0 t

def scanItalic (t : Str) : List EmMatch := scanItalicE 0 t

def scanCode (t : Str) : List EmMatch := scanCodeE 0 t

/-- Stable insertion by a numeric key: the new element goes after all strictly
smaller keys and before equal ones, matching ECMAScript's stable
`Array.prototype.sort` on a fold from the right. -/
def stableInsert {α : Type} (key : α → Nat) (x : α) : List α → List α
  | [] => [x]
  | y :: ys => if key y < key x then y :: stableInsert key x ys else x :: y :: ys

/-- Stable sort by a numeric key, modelling `arr.sort((a, b) => key a - key b)`. -/
def stableSort {α : Type} (key : α → Nat) : List α → List α
  | [] => []
  | x :: xs => stableInsert key x (stableSort key xs)

/-- The match-processing walk of `parseTextWithFormatting`: emit the text before
each match as a plain span (when non-empty), then the captured text as a styled
span, moving the cursor to the end of the match; finally emit the trailing
text. -/
def processMatches (t : Str) : List EmMatch → Nat → List Inline
  | [], ci =>
    if ci < t.length then
      (if (t.drop ci).isEmpty then [] else [.plain (t.drop ci)])
    else []
  | m :: ms, ci =>
    (if ci < m.index then
      (if (slice t ci m.index).isEmpty then [] else [.plain (slice t ci m.index)])
     else [])
    ++ .styled m.inner m.kind :: processMatches t ms (m.index + m.len)

/-- The merged, sorted match list of the three emphasis scans, exactly as
`parseTextWithFormatting` builds `allMatches`. -/
def sortedEmMatchesE (extra : Nat) (t : Str) : List EmMatch :=
  stableSort EmMatch.index (scanBoldE extra t ++ scanItalicE extra t ++ scanCodeE extra t)

def sortedEmMatches (t : Str) : List EmMatch := sortedEmMatchesE 0 t

/-- `parseTextWithFormatting` from the source: scan the three emphasis
patterns, sort all matches by index, process them left to right; if nothing was
emitted return the whole text as one plain span. -/
def parseTextWithFormattingE (extra : Nat) (t : Str) : List Inline :=
  let els := processMatches t (sortedEmMatchesE extra t) 0
  if els.isEmpty then [.plain t] else els

def parseTextWithFormatting (t : Str) : List Inline := parseTextWithFormattingE 0 t

/-- The visible text carried by one inline span. -/
def spanText : Inline → Str
  | .link text _ => text
  | .styled text _ => text
  | .plain text => text

/-- Concatenated visible text of a span sequence. -/
def spansText (l : List Inline) : Str := (l.map spanText).flatten

/-- The union of the three emphasis scans before sorting. -/
def allEmMatches (t : Str) : List EmMatch := scanBold t ++ scanItalic t ++ scanCode t

/-- Decidable check that a match list is in-bounds, ordered and pairwise
non-overlapping starting from cursor `ci`. -/
def chainOk (tlen : Nat) : Nat → List EmMatch → Bool
  | _, [] => true
  | ci, m :: ms =>
    decide (ci ≤ m.index) && decide (m.index + m.len ≤ tlen) && chainOk tlen (m.index + m.len) ms

/-- The input text with each match's region replaced by its captured inner
text: gaps are kept verbatim, matched delimiters disappear. -/
def eraseRegions (t : Str) : List EmMatch → Nat → Str
  | [], ci => t.drop ci
  | m :: ms, ci => slice t ci m.index ++ m.inner ++ eraseRegions t ms (m.index + m.len)

/-- The closing delimiter of each emphasis pattern. -/
def closeDelim : EmphKind → Str
  | .bold => toStr "**"
  | .italic => toStr "*"
  | .code => toStr "`"

/-- Attempt to match `\[([^\]]+)\]\(([^)]+)\)` at the head of `s`: returns
display text, url and total match length.  The character classes exclude the
closing bracket, so the greedy runs are forced to end at the first closer. -/
def mdMatchAt (s : Str) : Option (Str × Str × Nat) :=
  match s with
  | '[' :: rest =>
    let d := rest.takeWhile (fun c => !(c == ']'))
    if d.isEmpty then none
    else
      match rest.drop d.length with
      | ']' :: '(' :: rest3 =>
        let u := rest3.takeWhile (fun c => !(c == ')'))
        if u.isEmpty then none
        else
          match rest3.drop u.length with
          | ')' :: _ => some (d, u, d.length + u.length + 4)
          | _ => none
      | _ => none
  | _ => none

/-- The global exec loop of the markdown-link regex. -/
def scanMdAux : Nat → Str → Nat → List LinkCandidate
  | 0, _, _ => []
  | _ + 1, [], _ => []
  | f + 1, c :: rest, pos =>
    match mdMatchAt (c :: rest) with
    | some (d, u, len) =>
      ⟨pos, pos + len, d, u, .markdown⟩ :: scanMdAux f ((c :: rest).drop len) (pos + len)
    | none => scanMdAux f rest (pos + 1)

def scanMdLinksE (extra : Nat) (t : Str) : List LinkCandidate :=
  scanMdAux (t.length + 1 + extra) t 0

/-- All matches of the markdown-link regex over a line. -/
def scanMdLinks (t : Str) : List LinkCandidate := scanMdLinksE 0 t

/-- The character class `[^\s<>"{}|\\^`\[\]]` of the bare-URL regex. -/
def urlChar (c : Char) : Bool :=
  !(isJsSpace c || c == '<' || c == '>' || c == '"' || c == '{' || c == '}' ||
    c == '|' || c == '\\' || c == '^' || c == '`' || c == '[' || c == ']')

/-- Attempt to match `https?:\/\/[^\s<>"{}|\\^`\[\]]+` at the head of `s`. -/
def urlMatchAt (s : Str) : Option (Str × Nat) :=
  let pl : Option Nat :=
    if strStarts (toStr "https://") s then some 8
    else if strStarts (toStr "http://") s then some 7
    else none
  match pl with
  | none => none
  | some pl =>
    let run := (s.drop pl).takeWhile urlChar
    if run.isEmpty then none else some (s.take (pl + run.length), pl + run.length)

/-- The global exec loop of the bare-URL regex. -/
def scanUrlAux : Nat → Str → Nat → List LinkCandidate
  | 0, _, _ => []
  | _ + 1, [], _ => []
  | f + 1, c :: rest, pos =>
    match urlMatchAt (c :: rest) with
    | some (u, len) =>
      ⟨pos, pos + len, u, u, .plain⟩ :: scanUrlAux f ((c :: rest).drop len) (pos + len)
    | none => scanUrlAux f rest (pos + 1)

def scanUrlsE (extra : Nat) (t : Str) : List LinkCandidate :=
  scanUrlAux (t.length + 1 + extra) t 0

/-- All matches of the bare-URL regex over a line. -/
def scanUrls (t : Str) : List LinkCandidate := scanUrlsE 0 t

/-- The bare-URL candidates that survive the merge rule: a bare match is kept
unless its start offset falls inside `[start, stop)` of some markdown-link
match. -/
def keptUrlsE (extra : Nat) (t : Str) : List LinkCandidate :=
  (scanUrlsE extra t).filter fun u =>
    !(scanMdLinksE extra t).any fun l => decide (l.start ≤ u.start) && decide (u.start < l.stop)

def keptUrls (t : Str) : List LinkCandidate := keptUrlsE 0 t

/-- The merged, sorted candidate list `allLinks` of `parseInlineMarkdown`. -/
def allLinksE (extra : Nat) (t : Str) : List LinkCandidate :=
  stableSort LinkCandidate.start (scanMdLinksE extra t ++ keptUrlsE extra t)

def allLinks (t : Str) : List LinkCandidate := allLinksE 0 t

/-- The link walk of `parseInlineMarkdown`: gaps between links go through
`parseTextWithFormatting`, the links become link spans. -/
def walkLinksE (extra : Nat) (t : Str) : List LinkCandidate → Nat → List Inline
  | [], li =>
    if li < t.length then
      (if (t.drop li).isEmpty then [] else parseTextWithFormattingE extra (t.drop li))
    else []
  | l :: ls, li =>
    (if li < l.start then
      (if (slice t li l.start).isEmpty then []
       else parseTextWithFormattingE extra (slice t li l.start))
     else [])
    ++ .link l.text l.url :: walkLinksE extra t ls l.stop

/-- `parseInlineMarkdown` from the source: with no link candidates at all the
text goes straight to `parseTextWithFormatting`; otherwise the merged candidate
list is walked. -/
def parseInlineMarkdownE (extra : Nat) (t : Str) : List Inline :=
  if (scanMdLinksE extra t).isEmpty && (scanUrlsE extra t).isEmpty then
    parseTextWithFormattingE extra t
  else walkLinksE extra t (allLinksE extra t) 0

def parseInlineMarkdown (t : Str) : List Inline := parseInlineMarkdownE 0 t

/-- `line.startsWith('\x60\x60\x60')`: the fence test of `parseMarkdown`, used both
for the opening and for the closing fence. -/
def fenceTest (l : Str) : Bool := strStarts (toStr "```") l

/-- The detection regex `/^\d+\.\s/` of the numbered-list branch (also used by
`hasMarkdown` on the whole message). -/
def orderedDetect (s : Str) : Bool :=
  let d := s.takeWhile Char.isDigit
  !d.isEmpty &&
    (match s.drop d.length with
     | '.' :: c :: _ => isJsSpace c
     | _ => false)

/-- The capture regex `/^(\d+)\.\s(.*)$/`: it additionally requires the text
after the matched prefix to contain no line terminator (the `.` class), since
`$` only matches at the end of the string. -/
def orderedCapture (s : Str) : Option (Str × Str) :=
  let d := s.takeWhile Char.isDigit
  if d.isEmpty then none
  else
    match s.drop d.length with
    | '.' :: c :: rest => if isJsSpace c && rest.all jsDot then some (d, rest) else none
    | _ => none

/-- The code-collection `while` loop: gather lines until one starting with the
fence marker, returning the collected lines and the remaining lines (beginning
with the closing fence when one exists). -/
def collectCode : List Str → List Str × List Str
  | [] => ([], [])
  | l :: ls =>
    if fenceTest l then ([], l :: ls)
    else
      match collectCode ls with
      | (c, r) => (l :: c, r)

/-- The line loop of `parseMarkdown` over the split lines, with the branch
order of the source; `fuel` bounds the number of iterations and every wrapper
passes at least the number of lines plus one. -/
def segGoE (extra : Nat) : Nat → List Str → List Segment
  | 0, _ => []
  | _ + 1, [] => []
  | f + 1, line :: rest =>
    if strStarts (toStr "# ") line then .heading 1 (line.drop 2) :: segGoE extra f rest
    else if strStarts (toStr "## ") line then .heading 2 (line.drop 3) :: segGoE extra f rest
    else if strStarts (toStr "### ") line then .heading 3 (line.drop 4) :: segGoE extra f rest
    else if fenceTest line then
      .codeBlock (collectCode rest).1 :: segGoE extra f ((collectCode rest).2.drop 1)
    else if strStarts (toStr "> ") line then .blockquote (line.drop 2) :: segGoE extra f rest
    else if strStarts (toStr "- ") line || strStarts (toStr "* ") line then
      .bulletItem (parseInlineMarkdownE extra (line.drop 2)) :: segGoE extra f rest
    else if orderedDetect line then
      match orderedCapture line with
      | some (d, t) => .orderedItem d (parseInlineMarkdownE extra t) :: segGoE extra f rest
      | none => segGoE extra f rest
    else if line.any (fun c => !isJsSpace c) then
      .paragraph (parseInlineMarkdownE extra line) :: segGoE extra f rest
    else .spacer :: segGoE extra f rest

/-- `parseMarkdown` from the source: split the message on `'\n'` and run the
line loop. -/
def parseMarkdownE (extra : Nat) (t : Str) : List Segment :=
  segGoE extra ((splitLines t).length + 1 + extra) (splitLines t)

def parseMarkdown (t : Str) : List Segment := parseMarkdownE 0 t

/-- The match of `/[*_\x60#\[\]!-]/` on a single character. -/
def mdCharTest (c : Char) : Bool :=
  c == '*' || c == '_' || c == '`' || c == '#' || c == '[' || c == ']' ||
  c == '!' || c == '-'

/-- The `hasMarkdown` heuristic of the source: a character-class test, two
substring tests, the ordered-list detection at the start of the whole message,
and the `https?:\/\/` test. -/
def hasMarkdown (m : Str) : Bool :=
  m.any mdCharTest || containsStr (toStr "```") m || containsStr (toStr "> ") m ||
  orderedDetect m || (containsStr (toStr "http://") m || containsStr (toStr "https://") m)

/-- The rendering dispatch of `MessageBubble`: bot messages that pass the
heuristic run through `parseMarkdown`; everything else is a single literal
text segment. -/
def renderE (extra : Nat) (m : Str) (isFromUser : Bool) : List Segment :=
  if !isFromUser && hasMarkdown m then parseMarkdownE extra m else [.literal m]

def render (m : Str) (isFromUser : Bool) : List Segment := renderE 0 m isFromUser

/-- Whether some line of the message begins with the blockquote marker. -/
def blockquoteAtLineStart (m : Str) : Bool :=
  (splitLines m).any fun l => strStarts (toStr "> ") l

/-- The detector as the specification words it (claim C4): identical to
`hasMarkdown` except that the blockquote marker must occur at the start of a
line rather than anywhere in the message. -/
def specNeedsParsing (m : Str) : Bool :=
  m.any mdCharTest || containsStr (toStr "```") m || blockquoteAtLineStart m ||
  orderedDetect m || (containsStr (toStr "http://") m || containsStr (toStr "https://") m)

/-! ### Basic lemmas about the string primitives -/

theorem strStarts_iff {p s : Str} : strStarts p s = true ↔ ∃ r, s = p ++ r := by
  induction p generalizing s with
  | nil => simp [strStarts]
  | cons a as ih =>
    cases s with
    | nil => simp [strStarts]
    | cons b bs =>
      simp only [strStarts, Bool.and_eq_true, beq_iff_eq]
      constructor
      · rintro ⟨rfl, h⟩
        obtain ⟨r, rfl⟩ := ih.mp h
        exact ⟨r, rfl⟩
      · rintro ⟨r, hr⟩
        rw [List.cons_append] at hr
        injection hr with h1 h2
        exact ⟨h1.symm, ih.mpr ⟨r, h2⟩⟩

theorem strStarts_append_self (p r : Str) : strStarts p (p ++ r) = true :=
  strStarts_iff.mpr ⟨r, rfl⟩

theorem strStarts_mono {p a : Str} (b : Str) (h : strStarts p a = true) :
    strStarts p (a ++ b) = true := by
  obtain ⟨r, rfl⟩ := strStarts_iff.mp h
  exact strStarts_iff.mpr ⟨r ++ b, by simp⟩

theorem containsStr_iff {p s : Str} : containsStr p s = true ↔ ∃ a b, s = a ++ p ++ b := by
  induction s with
  | nil =>
    simp only [containsStr, List.isEmpty_iff]
    constructor
    · rintro rfl; exact ⟨[], [], rfl⟩
    · rintro ⟨a, b, h⟩
      rcases List.append_eq_nil.mp h.symm with ⟨h1, h2⟩
      exact (List.append_eq_nil.mp h1).2
  | cons c rest ih =>
    simp only [containsStr, Bool.or_eq_true]
    constructor
    · rintro (h | h)
      · obtain ⟨r, hr⟩ := strStarts_iff.mp h
        exact ⟨[], r, by simpa using hr⟩
      · obtain ⟨a, b, hab⟩ := ih.mp h
        exact ⟨c :: a, b, by simp [hab]⟩
    · rintro ⟨a, b, hab⟩
      cases a with
      | nil =>
        left
        simp only [List.nil_append] at hab
        exact hab ▸ strStarts_append_self p b
      | cons x xs =>
        right
        rw [List.cons_append, List.cons_append] at hab
        injection hab with h1 h2
        exact ih.mpr ⟨xs, b, by simpa using h2⟩

/-! ### Lemmas about the lazy emphasis matcher -/

theorem findLazyInner_decomp {cls s i r : Str}
    (h : findLazyInner cls s = some (i, r)) : s = i ++ cls ++ r := by
  induction s generalizing i r with
  | nil =>
    simp only [findLazyInner] at h
    split at h
    · rename_i hp
      injection h with h'
      injection h' with h1 h2
      have : cls = [] := by
        cases cls with
        | nil => rfl
        | cons x xs => simp [strStarts] at hp
      subst this
      simp [← h1, ← h2]
    · exact absurd h (by simp)
  | cons c rest ih =>
    simp only [findLazyInner] at h
    split at h
    · rename_i hp
      obtain ⟨q, hq⟩ := strStarts_iff.mp hp
      injection h with h'
      injection h' with h1 h2
      subst h1
      rw [hq, List.drop_left] at h2
      subst h2
      simpa using hq
    · split at h
      · rename_i hdot
        cases hrec : findLazyInner cls rest with
        | none => rw [hrec] at h; exact absurd h (by simp)
        | some p =>
          rw [hrec] at h
          obtain ⟨i', r'⟩ := p
          injection h with h'
          injection h' with h1 h2
          subst h1 h2
          simpa using ih hrec
      · exact absurd h (by simp)

theorem findLazyInner_not_contains {cls s i r : Str} (hcls : cls ≠ [])
    (h : findLazyInner cls s = some (i, r)) : containsStr cls i = false := by
  induction s generalizing i r with
  | nil =>
    simp only [findLazyInner] at h
    split at h
    · rename_i hp
      cases cls with
      | nil => exact absurd rfl hcls
      | cons x xs => simp [strStarts] at hp
    · exact absurd h (by simp)
  | cons c rest ih =>
    simp only [findLazyInner] at h
    split at h
    · rename_i hp
      injection h with h'
      injection h' with h1 _
      subst h1
      simpa [containsStr, List.isEmpty_iff] using hcls
    · split at h
      · rename_i hp hdot
        cases hrec : findLazyInner cls rest with
        | none => rw [hrec] at h; exact absurd h (by simp)
        | some p =>
          rw [hrec] at h
          obtain ⟨i', r'⟩ := p
          injection h with h'
          injection h' with h1 h2
          subst h1 h2
          have hrest := findLazyInner_decomp hrec
          have hnotpref : strStarts cls (c :: i') = false := by
            by_contra hne
            have hcp : strStarts cls (c :: i') = true := by
              cases hb : strStarts cls (c :: i') with
              | true => rfl
              | false => exact absurd hb hne
            have : strStarts cls ((c :: i') ++ (cls ++ r')) = true := strStarts_mono _ hcp
            rw [show (c :: i') ++ (cls ++ r') = c :: rest by
              simp [hrest, List.append_assoc]] at this
            rw [this] at hp
            exact hp rfl
          simp [containsStr, hnotpref, ih hrec]
      · exact absurd h (by simp)

theorem emMatchAt_spec {opn cls s i : Str} {len : Nat}
    (h : emMatchAt opn cls s = some (i, len)) :
    len = opn.length + i.length + cls.length ∧
      s.take len = opn ++ i ++ cls ∧ len ≤ s.length := by
  unfold emMatchAt at h
  split at h
  · rename_i hp
    obtain ⟨s1, rfl⟩ := strStarts_iff.mp hp
    rw [List.drop_left] at h
    cases hf : findLazyInner cls s1 with
    | none => rw [hf] at h; exact absurd h (by simp)
    | some p =>
      rw [hf] at h
      obtain ⟨i', r'⟩ := p
      injection h with h'
      injection h' with h1 h2
      subst h1
      have hd := findLazyInner_decomp hf
      subst hd
      refine ⟨h2.symm, ?_, ?_⟩
      · rw [← h2]
        have hre : opn ++ (i' ++ cls ++ r') = (opn ++ i' ++ cls) ++ r' := by
          simp [List.append_assoc]
        rw [hre]
        have hlen : opn.length + i'.length + cls.length = (opn ++ i' ++ cls).length := by
          simp
          omega
        rw [hlen, List.take_left]
      · rw [← h2]; simp; omega
  · exact absurd h (by simp)

theorem emMatchAt_not_contains {opn cls s i : Str} {len : Nat} (hcls : cls ≠ [])
    (h : emMatchAt opn cls s = some (i, len)) : containsStr cls i = false := by
  unfold emMatchAt at h
  split at h
  · cases hf : findLazyInner cls (s.drop opn.length) with
    | none => rw [hf] at h; exact absurd h (by simp)
    | some p =>
      rw [hf] at h
      obtain ⟨i', r'⟩ := p
      injection h with h'
      injection h' with h1 _
      subst h1
      exact findLazyInner_not_contains hcls hf
  · exact absurd h (by simp)

/-- Every match reported by the emphasis exec loop carries the loop's kind, is
in bounds, covers the text `opn ++ inner ++ cls` at its reported offset, and
its inner text does not contain the closing delimiter. -/
theorem scanPairsAux_mem {opn cls : Str} {k : EmphKind} (hcls : cls ≠ []) :
    ∀ {f : Nat} {s : Str} {pos : Nat} {m : EmMatch},
      m ∈ scanPairsAux opn cls k f s pos →
      m.kind = k ∧ containsStr cls m.inner = false ∧
        ∃ j, m.index = pos + j ∧ j + m.len ≤ s.length ∧
          (s.drop j).take m.len = opn ++ m.inner ++ cls := by
  intro f
  induction f with
  | zero => intro s pos m h; simp [scanPairsAux] at h
  | succ f ih =>
    intro s pos m h
    cases s with
    | nil => simp [scanPairsAux] at h
    | cons c rest =>
      simp only [scanPairsAux] at h
      cases hm : emMatchAt opn cls (c :: rest) with
      | some p =>
        obtain ⟨inner, len⟩ := p
        rw [hm] at h
        rcases List.mem_cons.mp h with rfl | htail
        · obtain ⟨hlen, htake, hle⟩ := emMatchAt_spec hm
          exact ⟨rfl, emMatchAt_not_contains hcls hm,
            0, by simp, by simpa using hle, by simpa using htake⟩
        · obtain ⟨hk, hc, j', hj1, hj2, hj3⟩ := ih htail
          obtain ⟨_, _, hle⟩ := emMatchAt_spec hm
          refine ⟨hk, hc, len + j', by omega, ?_, ?_⟩
          · have := List.length_drop len (c :: rest)
            omega
          · rw [← hj3, List.drop_drop]
      | none =>
        rw [hm] at h
        obtain ⟨hk, hc, j', hj1, hj2, hj3⟩ := ih h
        refine ⟨hk, hc, j' + 1, by omega, by simp; omega, ?_⟩
        rw [← hj3]
        rfl

/-- With enough fuel the emphasis exec loop's result does not depend on the
exact fuel value: the loop terminates within `s.length` iterations. -/
theorem scanPairsAux_fuel {opn cls : Str} {k : EmphKind} (hopn : opn ≠ []) :
    ∀ {f₁ f₂ : Nat} {s : Str} {pos : Nat}, s.length < f₁ → s.length < f₂ →
      scanPairsAux opn cls k f₁ s pos = scanPairsAux opn cls k f₂ s pos := by
  intro f₁
  induction f₁ with
  | zero => intro f₂ s pos h1 _; omega
  | succ f₁ ih =>
    intro f₂ s pos h1 h2
    cases f₂ with
    | zero => omega
    | succ f₂ =>
      cases s with
      | nil => simp [scanPairsAux]
      | cons c rest =>
        cases hm : emMatchAt opn cls (c :: rest) with
        | some p =>
          obtain ⟨inner, len⟩ := p
          obtain ⟨hlen, _, hle⟩ := emMatchAt_spec hm
          have hpos : 1 ≤ len := by
            have : 1 ≤ opn.length := by
              cases opn with
              | nil => exact absurd rfl hopn
              | cons _ _ => simp
            omega
          have hdl : ((c :: rest).drop len).length < f₁ := by
            rw [List.length_drop]
            simp only [List.length_cons] at h1 hle ⊢
            omega
          have hdl2 : ((c :: rest).drop len).length < f₂ := by
            rw [List.length_drop]
            simp only [List.length_cons] at h2 hle ⊢
            omega
          simp only [scanPairsAux, hm]
          rw [ih hdl hdl2]
        | none =>
          have hr1 : rest.length < f₁ := by simp at h1; omega
          have hr2 : rest.length < f₂ := by simp at h2; omega
          simp only [scanPairsAux, hm]
          rw [ih hr1 hr2]

/-! ### Lemmas about the link scanners -/

theorem mdMatchAt_spec {s d u : Str} {len : Nat} (h : mdMatchAt s = some (d, u, len)) :
    1 ≤ len ∧ d ≠ [] ∧ u ≠ [] := by
  simp only [mdMatchAt] at h
  split at h
  · split at h
    · exact absurd h (by simp)
    · rename_i hd
      split at h
      · split at h
        · exact absurd h (by simp)
        · rename_i hu
          split at h
          · injection h with h'
            injection h' with h1 h'
            injection h' with h2 h3
            subst h1 h2
            refine ⟨by omega, ?_, ?_⟩
            · intro hnil
              exact hd (by simp [hnil])
            · intro hnil
              exact hu (by simp [hnil])
          · exact absurd h (by simp)
      · exact absurd h (by simp)
  · exact absurd h (by simp)

theorem urlMatchAt_spec {s u : Str} {len : Nat} (h : urlMatchAt s = some (u, len)) :
    1 ≤ len := by
  simp only [urlMatchAt] at h
  split at h
  · exact absurd h (by simp)
  · rename_i pl heq
    split at h
    · exact absurd h (by simp)
    · injection h with h'
      injection h' with h1 h2
      split at heq
      · injection heq with hq
        omega
      · split at heq
        · injection heq with hq
          omega
        · exact absurd heq (by simp)

theorem scanMdAux_mem :
    ∀ {f : Nat} {s : Str} {pos : Nat} {l : LinkCandidate},
      l ∈ scanMdAux f s pos → l.type = .markdown ∧ l.text ≠ [] ∧ l.url ≠ [] := by
  intro f
  induction f with
  | zero => intro s pos l h; simp [scanMdAux] at h
  | succ f ih =>
    intro s pos l h
    cases s with
    | nil => simp [scanMdAux] at h
    | cons c rest =>
      simp only [scanMdAux] at h
      cases hm : mdMatchAt (c :: rest) with
      | some p =>
        obtain ⟨d, u, len⟩ := p
        rw [hm] at h
        rcases List.mem_cons.mp h with rfl | htail
        · obtain ⟨_, hd, hu⟩ := mdMatchAt_spec hm
          exact ⟨rfl, hd, hu⟩
        · exact ih htail
      | none =>
        rw [hm] at h
        exact ih h

theorem scanUrlAux_mem :
    ∀ {f : Nat} {s : Str} {pos : Nat} {l : LinkCandidate},
      l ∈ scanUrlAux f s pos → l.type = .plain := by
  intro f
  induction f with
  | zero => intro s pos l h; simp [scanUrlAux] at h
  | succ f ih =>
    intro s pos l h
    cases s with
    | nil => simp [scanUrlAux] at h
    | cons c rest =>
      simp only [scanUrlAux] at h
      cases hm : urlMatchAt (c :: rest) with
      | some p =>
        obtain ⟨u, len⟩ := p
        rw [hm] at h
        rcases List.mem_cons.mp h with rfl | htail
        · rfl
        · exact ih htail
      | none =>
        rw [hm] at h
        exact ih h

theorem scanMdAux_fuel :
    ∀ {f₁ f₂ : Nat} {s : Str} {pos : Nat}, s.length < f₁ → s.length < f₂ →
      scanMdAux f₁ s pos = scanMdAux f₂ s pos := by
  intro f₁
  induction f₁ with
  | zero => intro f₂ s pos h1 _; omega
  | succ f₁ ih =>
    intro f₂ s pos h1 h2
    cases f₂ with
    | zero => omega
    | succ f₂ =>
      cases s with
      | nil => simp [scanMdAux]
      | cons c rest =>
        cases hm : mdMatchAt (c :: rest) with
        | some p =>
          obtain ⟨d, u, len⟩ := p
          obtain ⟨hpos, _, _⟩ := mdMatchAt_spec hm
          have hdl : ((c :: rest).drop len).length < f₁ := by
            rw [List.length_drop]
            simp only [List.length_cons] at h1 ⊢
            omega
          have hdl2 : ((c :: rest).drop len).length < f₂ := by
            rw [List.length_drop]
            simp only [List.length_cons] at h2 ⊢
            omega
          simp only [scanMdAux, hm]
          rw [ih hdl hdl2]
        | none =>
          have hr1 : rest.length < f₁ := by simp at h1; omega
          have hr2 : rest.length < f₂ := by simp at h2; omega
          simp only [scanMdAux, hm]
          rw [ih hr1 hr2]

theorem scanUrlAux_fuel :
    ∀ {f₁ f₂ : Nat} {s : Str} {pos : Nat}, s.length < f₁ → s.length < f₂ →
      scanUrlAux f₁ s pos = scanUrlAux f₂ s pos := by
  intro f₁
  induction f₁ with
  | zero => intro f₂ s pos h1 _; omega
  | succ f₁ ih =>
    intro f₂ s pos h1 h2
    cases f₂ with
    | zero => omega
    | succ f₂ =>
      cases s with
      | nil => simp [scanUrlAux]
      | cons c rest =>
        cases hm : urlMatchAt (c :: rest) with
        | some p =>
          obtain ⟨u, len⟩ := p
          have hpos := urlMatchAt_spec hm
          have hdl : ((c :: rest).drop len).length < f₁ := by
            rw [List.length_drop]
            simp only [List.length_cons] at h1 ⊢
            omega
          have hdl2 : ((c :: rest).drop len).length < f₂ := by
            rw [List.length_drop]
            simp only [List.length_cons] at h2 ⊢
            omega
          simp only [scanUrlAux, hm]
          rw [ih hdl hdl2]
        | none =>
          have hr1 : rest.length < f₁ := by simp at h1; omega
          have hr2 : rest.length < f₂ := by simp at h2; omega
          simp only [scanUrlAux, hm]
          rw [ih hr1 hr2]

/-! ### Lemmas about the stable sort -/

theorem mem_stableInsert {α : Type} (key : α → Nat) (x a : α) :
    ∀ l : List α, a ∈ stableInsert key x l ↔ a = x ∨ a ∈ l := by
  intro l
  induction l with
  | nil => simp [stableInsert]
  | cons y ys ih =>
    by_cases hk : key y < key x
    · simp only [stableInsert, if_pos hk, List.mem_cons, ih]
      tauto
    · simp only [stableInsert, if_neg hk, List.mem_cons]

theorem mem_stableSort {α : Type} (key : α → Nat) (a : α) :
    ∀ l : List α, a ∈ stableSort key l ↔ a ∈ l := by
  intro l
  induction l with
  | nil => simp [stableSort]
  | cons x xs ih =>
    simp [stableSort, mem_stableInsert, ih]

theorem chain'_stableInsert {α : Type} (key : α → Nat) (x : α) :
    ∀ {l : List α}, List.Chain' (fun p q => key p ≤ key q) l →
      List.Chain' (fun p q => key p ≤ key q) (stableInsert key x l) := by
  intro l
  induction l with
  | nil => intro _; simp [stableInsert]
  | cons y ys ih =>
    intro h
    by_cases hk : key y < key x
    · rw [stableInsert, if_pos hk]
      rw [List.chain'_cons']
      refine ⟨?_, ih (h.tail)⟩
      intro b hb
      cases ys with
      | nil =>
        simp [stableInsert] at hb
        subst hb
        exact hk.le
      | cons z zs =>
        by_cases hz : key z < key x
        · rw [stableInsert, if_pos hz] at hb
          simp at hb
          subst hb
          exact (List.chain'_cons.mp h).1
        · rw [stableInsert, if_neg hz] at hb
          simp at hb
          subst hb
          exact hk.le
    · rw [stableInsert, if_neg hk]
      exact List.chain'_cons.mpr ⟨le_of_not_lt hk, h⟩

theorem chain'_stableSort {α : Type} (key : α → Nat) :
    ∀ l : List α, List.Chain' (fun p q => key p ≤ key q) (stableSort key l) := by
  intro l
  induction l with
  | nil => simp [stableSort]
  | cons x xs ih => exact chain'_stableInsert key x ih

/-! ### Lemmas about the block segmenter loop -/

theorem collectCode_eq :
    ∀ ls : List Str,
      collectCode ls = (ls.takeWhile (fun l => !fenceTest l), ls.dropWhile (fun l => !fenceTest l)) := by
  intro ls
  induction ls with
  | nil => simp [collectCode]
  | cons l ls ih =>
    by_cases hf : fenceTest l
    · simp [collectCode, hf, List.takeWhile_cons, List.dropWhile_cons]
    · simp [collectCode, hf, List.takeWhile_cons, List.dropWhile_cons, ih]

theorem takeWhile_all {α : Type} (p : α → Bool) :
    ∀ {l : List α}, (∀ a ∈ l, p a = true) → l.takeWhile p = l := by
  intro l
  induction l with
  | nil => intro _; rfl
  | cons x xs ih =>
    intro h
    rw [List.takeWhile_cons, if_pos (h x (by simp))]
    rw [ih fun a ha => h a (by simp [ha])]

theorem dropWhile_all {α : Type} (p : α → Bool) :
    ∀ {l : List α}, (∀ a ∈ l, p a = true) → l.dropWhile p = [] := by
  intro l
  induction l with
  | nil => intro _; rfl
  | cons x xs ih =>
    intro h
    rw [List.dropWhile_cons, if_pos (h x (by simp))]
    exact ih fun a ha => h a (by simp [ha])

theorem segGoE_nil (extra : Nat) : ∀ f : Nat, segGoE extra f [] = [] := by
  intro f
  cases f <;> rfl

theorem dropWhile_length_le {α : Type} (p : α → Bool) :
    ∀ l : List α, (l.dropWhile p).length ≤ l.length := by
  intro l
  induction l with
  | nil => simp
  | cons x xs ih =>
    rw [List.dropWhile_cons]
    split
    · exact le_trans ih (by simp)
    · simp

theorem segGoE_fuel (extra : Nat) :
    ∀ {f₁ f₂ : Nat} {ls : List Str}, ls.length < f₁ → ls.length < f₂ →
      segGoE extra f₁ ls = segGoE extra f₂ ls := by
  intro f₁
  induction f₁ with
  | zero => intro f₂ ls h1 _; omega
  | succ f₁ ih =>
    intro f₂ ls h1 h2
    cases f₂ with
    | zero => omega
    | succ f₂ =>
      cases ls with
      | nil => simp [segGoE]
      | cons line rest =>
        have hr1 : rest.length < f₁ := by simp at h1; omega
        have hr2 : rest.length < f₂ := by simp at h2; omega
        have hlen := dropWhile_length_le (fun l => !fenceTest l) rest
        have hc1 : (((collectCode rest).2).drop 1).length < f₁ := by
          rw [collectCode_eq]
          simp only [List.length_drop]
          simp only [List.length_cons] at h1
          omega
        have hc2 : (((collectCode rest).2).drop 1).length < f₂ := by
          rw [collectCode_eq]
          simp only [List.length_drop]
          simp only [List.length_cons] at h2
          omega
        cases horc : orderedCapture line with
        | some p =>
          obtain ⟨d, t⟩ := p
          simp only [segGoE, horc, ih hr1 hr2, ih hc1 hc2]
        | none =>
          simp only [segGoE, horc, ih hr1 hr2, ih hc1 hc2]

/-! ### The fuel bound is irrelevant: each wrapper already passes enough -/

theorem scanBoldE_eq (e : Nat) (t : Str) : scanBoldE e t = scanBold t :=
  scanPairsAux_fuel (by decide) (by omega) (by omega)

theorem scanItalicE_eq (e : Nat) (t : Str) : scanItalicE e t = scanItalic t :=
  scanPairsAux_fuel (by decide) (by omega) (by omega)

theorem scanCodeE_eq (e : Nat) (t : Str) : scanCodeE e t = scanCode t :=
  scanPairsAux_fuel (by decide) (by omega) (by omega)

theorem sortedEmMatchesE_eq (e : Nat) (t : Str) :
    sortedEmMatchesE e t = sortedEmMatches t := by
  simp only [sortedEmMatches, sortedEmMatchesE, scanBoldE_eq, scanItalicE_eq, scanCodeE_eq]

theorem ptwfE_eq (e : Nat) (t : Str) :
    parseTextWithFormattingE e t = parseTextWithFormatting t := by
  simp only [parseTextWithFormatting, parseTextWithFormattingE, sortedEmMatchesE_eq]

theorem scanMdLinksE_eq (e : Nat) (t : Str) : scanMdLinksE e t = scanMdLinks t :=
  scanMdAux_fuel (by omega) (by omega)

theorem scanUrlsE_eq (e : Nat) (t : Str) : scanUrlsE e t = scanUrls t :=
  scanUrlAux_fuel (by omega) (by omega)

theorem keptUrlsE_eq (e : Nat) (t : Str) : keptUrlsE e t = keptUrls t := by
  simp only [keptUrls, keptUrlsE, scanUrlsE_eq, scanMdLinksE_eq]

theorem allLinksE_eq (e : Nat) (t : Str) : allLinksE e t = allLinks t := by
  simp only [allLinks, allLinksE, scanMdLinksE_eq, keptUrlsE_eq]

theorem walkLinksE_eq (e : Nat) (t : Str) :
    ∀ (ls : List LinkCandidate) (li : Nat), walkLinksE e t ls li = walkLinksE 0 t ls li := by
  intro ls
  induction ls with
  | nil => intro li; simp only [walkLinksE, ptwfE_eq]
  | cons l ls ih => intro li; simp only [walkLinksE, ptwfE_eq, ih]

theorem pimE_eq (e : Nat) (t : Str) :
    parseInlineMarkdownE e t = parseInlineMarkdown t := by
  simp only [parseInlineMarkdown, parseInlineMarkdownE, scanMdLinksE_eq, scanUrlsE_eq,
    ptwfE_eq, allLinksE_eq, walkLinksE_eq]

theorem segGoE_extra (e : Nat) :
    ∀ (f : Nat) (ls : List Str), segGoE e f ls = segGoE 0 f ls := by
  intro f
  induction f with
  | zero => intro ls; rfl
  | succ f ih =>
    intro ls
    cases ls with
    | nil => rfl
    | cons line rest =>
      cases horc : orderedCapture line with
      | some p =>
        obtain ⟨d, t⟩ := p
        simp only [segGoE, horc, pimE_eq, ih]
      | none =>
        simp only [segGoE, horc, pimE_eq, ih]

theorem parseMarkdownE_eq (e : Nat) (t : Str) : parseMarkdownE e t = parseMarkdown t := by
  unfold parseMarkdown parseMarkdownE
  rw [segGoE_extra]
  exact segGoE_fuel 0 (by omega) (by omega)

/-! ### The span-tiling analysis of `parseTextWithFormatting` -/

theorem spansText_append (a b : List Inline) :
    spansText (a ++ b) = spansText a ++ spansText b := by
  simp [spansText]

theorem spansText_cons (x : Inline) (l : List Inline) :
    spansText (x :: l) = spanText x ++ spansText l := by
  simp [spansText]

theorem drop_ne_nil_of_lt {t : Str} {n : Nat} (h : n < t.length) : t.drop n ≠ [] := by
  intro hnil
  have := List.length_drop n t
  rw [hnil] at this
  simp at this
  omega

theorem drop_eq_nil_of_le' {t : Str} {n : Nat} (h : t.length ≤ n) : t.drop n = [] := by
  apply List.eq_nil_of_length_eq_zero
  rw [List.length_drop]
  omega

theorem slice_ne_nil {t : Str} {a b : Nat} (hab : a < b) (hb : b ≤ t.length) :
    slice t a b ≠ [] := by
  intro hnil
  have : (slice t a b).length = 0 := by rw [hnil]; rfl
  unfold slice at this
  rw [List.length_take, List.length_drop] at this
  omega

theorem slice_self (t : Str) (a : Nat) : slice t a a = [] := by
  unfold slice
  simp

/-- The central tiling lemma: when the match list is ordered, non-overlapping
and in bounds, the concatenated visible text of the processed spans is the
input with each matched region replaced by its captured inner text. -/
theorem spansText_processMatches (t : Str) :
    ∀ (ms : List EmMatch) (ci : Nat), chainOk t.length ci ms = true →
      spansText (processMatches t ms ci) = eraseRegions t ms ci := by
  intro ms
  induction ms with
  | nil =>
    intro ci _
    simp only [processMatches, eraseRegions]
    by_cases hci : ci < t.length
    · rw [if_pos hci, if_neg (by simpa [List.isEmpty_iff] using drop_ne_nil_of_lt hci)]
      simp [spansText, spanText]
    · rw [if_neg hci]
      rw [drop_eq_nil_of_le' (by omega)]
      simp [spansText]
  | cons m ms ih =>
    intro ci h
    simp only [chainOk, Bool.and_eq_true, decide_eq_true_eq] at h
    obtain ⟨⟨hcile, hbound⟩, hchain⟩ := h
    simp only [processMatches, eraseRegions]
    rw [spansText_append, spansText_cons]
    rw [ih _ hchain]
    by_cases hlt : ci < m.index
    · rw [if_pos hlt,
        if_neg (by simpa [List.isEmpty_iff] using slice_ne_nil hlt (by omega))]
      simp [spansText, spanText, List.append_assoc]
    · have hk : ci = m.index := by omega
      subst hk
      rw [if_neg (by omega), slice_self]
      simp [spansText, spanText]

theorem processMatches_cons_ne (t : Str) (m : EmMatch) (ms : List EmMatch) (ci : Nat) :
    processMatches t (m :: ms) ci ≠ [] := by
  simp only [processMatches]
  intro hc
  rcases List.append_eq_nil.mp hc with ⟨_, h2⟩
  exact List.cons_ne_nil _ _ h2

/-- Every match of the three emphasis scans is in bounds and covers exactly
its delimiters around its inner text. -/
theorem allEmMatches_region {t : Str} {m : EmMatch} (hm : m ∈ allEmMatches t) :
    m.index + m.len ≤ t.length ∧
      (t.drop m.index).take m.len = closeDelim m.kind ++ m.inner ++ closeDelim m.kind := by
  have handle :
      ∀ {opn cls : Str} {k : EmphKind}, cls ≠ [] → opn = cls →
        m ∈ scanPairsAux opn cls k (t.length + 1 + 0) t 0 →
        closeDelim k = cls →
        m.index + m.len ≤ t.length ∧
          (t.drop m.index).take m.len = closeDelim m.kind ++ m.inner ++ closeDelim m.kind := by
    intro opn cls k hcls hoc hmem hcd
    obtain ⟨hk, _, j, hj1, hj2, hj3⟩ := scanPairsAux_mem hcls hmem
    have hji : j = m.index := by omega
    subst hji
    subst hoc
    refine ⟨by omega, ?_⟩
    rw [hk, hcd]
    exact hj3
  rcases List.mem_append.mp hm with hbi | hcode
  · rcases List.mem_append.mp hbi with hbold | hitalic
    · simp only [scanBold, scanBoldE] at hbold
      exact handle (by decide) (by decide) hbold (by decide)
    · simp only [scanItalic, scanItalicE] at hitalic
      exact handle (by decide) (by decide) hitalic (by decide)
  · simp only [scanCode, scanCodeE] at hcode
    exact handle (by decide) (by decide) hcode (by decide)

/-- Claim C2 (counterexample): on `"**bold**"` the bold match and the two
spurious italic matches overlap, the cursor moves backwards, and the four
characters `bold` are emitted twice — the concatenated span text is
`"boldbold"`, not the input with its delimiters removed (`"bold"`). -/
theorem spanTiling_cex :
    spansText (parseTextWithFormatting (toStr "**bold**")) = toStr "boldbold" ∧
      toStr "boldbold" ≠ (toStr "**bold**").filter (fun c => !(c == '*' || c == '`')) := by
  constructor
  · decide
  · decide

/-- Claim C2 (amended): provided the merged, sorted matches of the three
emphasis scans are pairwise non-overlapping and in bounds (`chainOk`), the
spans returned by emphasis extraction, concatenated in order, reconstruct the
input text with each match's two delimiters removed and everything else
preserved, with no gaps and no duplication; moreover every match's region is
exactly delimiter, inner text, delimiter.  (When the scans overlap — e.g. the
italic scan double-matching inside `"**bold**"` — the tiling fails, see the
counterexample.) -/
theorem spanTiling_of_chainOk (t : Str)
    (h : chainOk t.length 0 (sortedEmMatches t) = true) :
    spansText (parseTextWithFormatting t) = eraseRegions t (sortedEmMatches t) 0 ∧
      ∀ m ∈ allEmMatches t,
        m.index + m.len ≤ t.length ∧
          (t.drop m.index).take m.len = closeDelim m.kind ++ m.inner ++ closeDelim m.kind := by
  refine ⟨?_, fun m hm => allEmMatches_region hm⟩
  have hcore := spansText_processMatches t (sortedEmMatches t) 0 h
  show spansText (parseTextWithFormattingE 0 t) = _
  unfold parseTextWithFormattingE
  by_cases hels : (processMatches t (sortedEmMatchesE 0 t) 0).isEmpty
  · rw [if_pos hels]
    have hempty : processMatches t (sortedEmMatchesE 0 t) 0 = [] := by
      simpa [List.isEmpty_iff] using hels
    have hms : sortedEmMatchesE 0 t = [] := by
      cases hsm : sortedEmMatchesE 0 t with
      | nil => rfl
      | cons m ms =>
        rw [hsm] at hempty
        exact absurd hempty (processMatches_cons_ne t m ms 0)
    have ht : t = [] := by
      rw [hms] at hempty
      simp only [processMatches] at hempty
      cases t with
      | nil => rfl
      | cons c cs =>
        rw [if_pos (by simp)] at hempty
        rw [if_neg (by simp)] at hempty
        exact absurd hempty (List.cons_ne_nil _ _)
    subst ht
    have hms' : sortedEmMatches ([] : Str) = [] := hms
    rw [hms']
    simp [spansText, spanText, eraseRegions]
  · rw [if_neg hels]
    exact hcore

/-- Claim C2 (amended) witness at `"*a* `+`b`+`"`. -/
theorem spanTiling_of_chainOk_witness :
    chainOk (toStr "*a* `b`").length 0 (sortedEmMatches (toStr "*a* `b`")) = true ∧
      (spansText (parseTextWithFormatting (toStr "*a* `b`")) =
          eraseRegions (toStr "*a* `b`") (sortedEmMatches (toStr "*a* `b`")) 0 ∧
        ∀ m ∈ allEmMatches (toStr "*a* `b`"),
          m.index + m.len ≤ (toStr "*a* `b`").length ∧
            ((toStr "*a* `b`").drop m.index).take m.len =
              closeDelim m.kind ++ m.inner ++ closeDelim m.kind) :=
  ⟨by decide, spanTiling_of_chainOk (toStr "*a* `b`") (by decide)⟩

/-- Claim C7 (counterexample): the scans use `(.*?)` — zero or more characters,
lazily — so a Styled span with empty inner text is possible: on input `"**"`
the italic scan matches the two asterisks around an empty capture and the
output is a single empty italic span. -/
theorem emptyStyled_cex :
    parseTextWithFormatting (toStr "**") = [Inline.styled [] EmphKind.italic] := by
  decide

/-- Claim C7 (amended): each of the three scans takes the shortest — possibly
empty — inner text between its delimiters; consequently the inner text of a
match never contains the scan's own closing delimiter, but Styled spans with
empty inner text do occur (see the counterexample). -/
theorem emphasisInner_no_delim (t : Str) (m : EmMatch) (hm : m ∈ allEmMatches t) :
    containsStr (closeDelim m.kind) m.inner = false := by
  have handle :
      ∀ {opn cls : Str} {k : EmphKind}, cls ≠ [] →
        m ∈ scanPairsAux opn cls k (t.length + 1 + 0) t 0 →
        closeDelim k = cls →
        containsStr (closeDelim m.kind) m.inner = false := by
    intro opn cls k hcls hmem hcd
    obtain ⟨hk, hc, _⟩ := scanPairsAux_mem hcls hmem
    rw [hk, hcd]
    exact hc
  rcases List.mem_append.mp hm with hbi | hcode
  · rcases List.mem_append.mp hbi with hbold | hitalic
    · simp only [scanBold, scanBoldE] at hbold
      exact handle (by decide) hbold (by decide)
    · simp only [scanItalic, scanItalicE] at hitalic
      exact handle (by decide) hitalic (by decide)
  · simp only [scanCode, scanCodeE] at hcode
    exact handle (by decide) hcode (by decide)

/-- Claim C7 (amended) witness at `"*a*"`. -/
theorem emphasisInner_no_delim_witness :
    (⟨0, 3, toStr "a", EmphKind.italic⟩ : EmMatch) ∈ allEmMatches (toStr "*a*") ∧
      containsStr (closeDelim EmphKind.italic) (toStr "a") = false :=
  ⟨by decide, emphasisInner_no_delim (toStr "*a*") ⟨0, 3, toStr "a", EmphKind.italic⟩ (by decide)⟩

/-- Claim C1: for every message and `isFromUser` flag, when the flag is set or
the heuristic detector returns false the output is exactly one literal segment
whose text is the message unchanged; otherwise the output is the block
segmenter's sequence (whose list/paragraph segments carry their content through
inline resolution, per the definition of `parseMarkdown`). -/
theorem render_dispatch (m : Str) (u : Bool) :
    render m u =
      if u = true ∨ hasMarkdown m = false then [Segment.literal m] else parseMarkdown m := by
  unfold render renderE
  cases u with
  | true => simp
  | false =>
    cases hh : hasMarkdown m with
    | true => simp [hh, parseMarkdown]
    | false => simp [hh]

/-- Claim C9: totality of the pipeline.  Every loop of the source is embedded
with an explicit fuel bound derived from the input's length; giving every loop
arbitrarily more fuel never changes the result, i.e. each exec loop, the fence
collection and the line loop all terminate within their bound, and `render`
returns a defined segment list for every input string and flag. -/
theorem render_total (extra : Nat) (m : Str) (u : Bool) :
    renderE extra m u = render m u := by
  unfold render renderE
  cases u <;> cases hh : hasMarkdown m <;> simp [hh, parseMarkdownE_eq]

/-- Claim C5: a bare-URL candidate survives the merge exactly when its start
offset lies in no markdown-link match's `[start, stop)` range; the merged
candidate list is sorted ascending by start offset; every markdown-link
candidate is kept; and on `"see [here](https://a.com) now"` the merge yields
the single markdown candidate, the bare match being discarded. -/
theorem linkMerge (t : Str) (u : LinkCandidate) (hu : u ∈ scanUrls t) :
    (u ∈ allLinks t ↔ ∀ l ∈ scanMdLinks t, ¬(l.start ≤ u.start ∧ u.start < l.stop)) ∧
      List.Chain' (fun a b => a.start ≤ b.start) (allLinks t) ∧
      (∀ l ∈ scanMdLinks t, l ∈ allLinks t) ∧
      allLinks (toStr "see [here](https://a.com) now") =
        [⟨4, 25, toStr "here", toStr "https://a.com", LinkType.markdown⟩] := by
  have hplain : u.type = LinkType.plain :=
    scanUrlAux_mem (by simpa [scanUrls, scanUrlsE] using hu)
  refine ⟨?_, ?_, ?_, by decide⟩
  · unfold allLinks allLinksE
    rw [mem_stableSort, List.mem_append]
    constructor
    · rintro (hmd | hkept)
      · have hmdty := (scanMdAux_mem (by simpa [scanMdLinksE] using hmd)).1
        rw [hplain] at hmdty
        exact absurd hmdty (by simp)
      · intro l hl hcover
        unfold keptUrlsE at hkept
        have hpred := (List.mem_filter.mp hkept).2
        rw [Bool.not_eq_true'] at hpred
        have hall := List.any_eq_false.mp hpred l (by simpa [scanMdLinks, scanMdLinksE] using hl)
        simp only [Bool.and_eq_true, decide_eq_true_eq] at hall
        exact hall ⟨hcover.1, hcover.2⟩
    · intro hall
      right
      unfold keptUrlsE
      apply List.mem_filter.mpr
      refine ⟨by simpa [scanUrls, scanUrlsE] using hu, ?_⟩
      rw [Bool.not_eq_true']
      apply List.any_eq_false.mpr
      intro l hl
      have := hall l (by simpa [scanMdLinks, scanMdLinksE] using hl)
      simp only [Bool.and_eq_true, decide_eq_true_eq]
      tauto
  · exact chain'_stableSort _ _
  · intro l hl
    unfold allLinks allLinksE
    rw [mem_stableSort]
    exact List.mem_append.mpr (Or.inl (by simpa [scanMdLinks, scanMdLinksE] using hl))

/-- Claim C5: witness at the specification's own example line, with the bare
match `https://a.com)` starting at offset 11 inside the markdown match
`[4, 25)`. -/
theorem linkMerge_witness :
    (⟨11, 25, toStr "https://a.com)", toStr "https://a.com)", LinkType.plain⟩ : LinkCandidate) ∈
        scanUrls (toStr "see [here](https://a.com) now") ∧
      ((⟨11, 25, toStr "https://a.com)", toStr "https://a.com)", LinkType.plain⟩ : LinkCandidate) ∈
            allLinks (toStr "see [here](https://a.com) now") ↔
          ∀ l ∈ scanMdLinks (toStr "see [here](https://a.com) now"),
            ¬(l.start ≤ 11 ∧ 11 < l.stop)) ∧
        List.Chain' (fun a b => a.start ≤ b.start)
          (allLinks (toStr "see [here](https://a.com) now")) ∧
        (∀ l ∈ scanMdLinks (toStr "see [here](https://a.com) now"),
          l ∈ allLinks (toStr "see [here](https://a.com) now")) ∧
        allLinks (toStr "see [here](https://a.com) now") =
          [⟨4, 25, toStr "here", toStr "https://a.com", LinkType.markdown⟩] :=
  ⟨by decide,
    linkMerge (toStr "see [here](https://a.com) now")
      ⟨11, 25, toStr "https://a.com)", toStr "https://a.com)", LinkType.plain⟩ (by decide)⟩

/-- Claim C10: the markdown-link scan's character classes are `+`-quantified,
so every extracted candidate has non-empty display text and non-empty target;
in particular `"[](https://a.com)"` and `"[text]()"` produce no markdown-link
candidate at all. -/
theorem mdLinkNonempty (t : Str) (l : LinkCandidate) (hl : l ∈ scanMdLinks t) :
    (l.text ≠ [] ∧ l.url ≠ []) ∧
      scanMdLinks (toStr "[](https://a.com)") = [] ∧
      scanMdLinks (toStr "[text]()") = [] := by
  have h := scanMdAux_mem (by simpa [scanMdLinks, scanMdLinksE] using hl)
  exact ⟨⟨h.2.1, h.2.2⟩, by decide, by decide⟩

/-- Claim C10: witness at `"[a](b)"`. -/
theorem mdLinkNonempty_witness :
    (⟨0, 6, toStr "a", toStr "b", LinkType.markdown⟩ : LinkCandidate) ∈
        scanMdLinks (toStr "[a](b)") ∧
      ((toStr "a" ≠ [] ∧ toStr "b" ≠ []) ∧
        scanMdLinks (toStr "[](https://a.com)") = [] ∧
        scanMdLinks (toStr "[text]()") = []) :=
  ⟨by decide,
    mdLinkNonempty (toStr "[a](b)") ⟨0, 6, toStr "a", toStr "b", LinkType.markdown⟩ (by decide)⟩

/-! ### The heuristic detector -/

theorem takeWhile_drop_split {α : Type} (p : α → Bool) :
    ∀ l : List α, l = l.takeWhile p ++ l.drop (l.takeWhile p).length := by
  intro l
  induction l with
  | nil => rfl
  | cons x xs ih =>
    rw [List.takeWhile_cons]
    split
    · simpa using ih
    · rfl

theorem mem_takeWhile_prop {α : Type} (p : α → Bool) :
    ∀ (l : List α) (a : α), a ∈ l.takeWhile p → p a = true := by
  intro l
  induction l with
  | nil => intro a ha; simp at ha
  | cons x xs ih =>
    intro a ha
    rw [List.takeWhile_cons] at ha
    by_cases hx : p x
    · rw [if_pos hx] at ha
      rcases List.mem_cons.mp ha with rfl | ha'
      · exact hx
      · exact ih a ha'
    · rw [if_neg hx] at ha
      simp at ha

theorem takeWhile_all_append {α : Type} (p : α → Bool) {l₁ : List α} (l₂ : List α)
    (h : ∀ a ∈ l₁, p a = true) : (l₁ ++ l₂).takeWhile p = l₁ ++ l₂.takeWhile p := by
  induction l₁ with
  | nil => simp
  | cons x xs ih =>
    rw [List.cons_append, List.takeWhile_cons, if_pos (h x (by simp))]
    rw [ih fun a ha => h a (by simp [ha]), List.cons_append]

theorem orderedDetect_iff (m : Str) :
    orderedDetect m = true ↔
      ∃ ds c r, m = ds ++ '.' :: c :: r ∧ ds ≠ [] ∧
        (∀ d ∈ ds, d.isDigit = true) ∧ isJsSpace c = true := by
  constructor
  · intro h
    unfold orderedDetect at h
    simp only [Bool.and_eq_true] at h
    obtain ⟨h1, h2⟩ := h
    split at h2
    · rename_i c rest heq
      refine ⟨m.takeWhile Char.isDigit, c, rest, ?_, ?_, ?_, h2⟩
      · conv_lhs => rw [takeWhile_drop_split Char.isDigit m]
        rw [heq]
      · simpa [List.isEmpty_iff] using h1
      · exact fun d hd => mem_takeWhile_prop Char.isDigit m d hd
    · exact absurd h2 (by simp)
  · rintro ⟨ds, c, r, rfl, hne, hdig, hsp⟩
    unfold orderedDetect
    have htw : (ds ++ '.' :: c :: r).takeWhile Char.isDigit = ds := by
      rw [takeWhile_all_append Char.isDigit _ hdig]
      rw [List.takeWhile_cons, if_neg (by decide)]
      simp
    rw [htw]
    rw [Bool.and_eq_true]
    refine ⟨by simpa [List.isEmpty_iff] using hne, ?_⟩
    rw [List.drop_left]
    exact hsp

/-- Claim C4 (counterexample): the source tests `message.includes('> ')`, so a
blockquote marker anywhere — not only at a line start — makes the detector
fire: on `"a > b"` the detector returns true although no line starts with the
blockquote marker and no other detector clause applies (the claim's predicate,
`specNeedsParsing`, returns false). -/
theorem detector_blockquote_cex :
    hasMarkdown (toStr "a > b") = true ∧ specNeedsParsing (toStr "a > b") = false := by
  constructor
  · decide
  · decide

/-- Claim C4 (amended): `needsStructuredParsing` returns true iff the message
contains a character of the set, or the fence marker, or the two-character
blockquote marker *anywhere in the message* (not only at a line start), or an
ordered-list marker at the start of the whole message, or an `http://` or
`https://` substring; it is total and returns false otherwise. -/
theorem detector_iff (m : Str) :
    hasMarkdown m = true ↔
      ((∃ c ∈ m, c ∈ (['*', '_', '`', '#', '[', ']', '!', '-'] : List Char)) ∨
        (∃ a b, m = a ++ toStr "```" ++ b) ∨
        (∃ a b, m = a ++ toStr "> " ++ b) ∨
        (∃ ds c r, m = ds ++ '.' :: c :: r ∧ ds ≠ [] ∧
          (∀ d ∈ ds, d.isDigit = true) ∧ isJsSpace c = true) ∨
        (∃ a b, m = a ++ toStr "http://" ++ b) ∨
        (∃ a b, m = a ++ toStr "https://" ++ b)) := by
  have h1 : m.any mdCharTest = true ↔
      (∃ c ∈ m, c ∈ (['*', '_', '`', '#', '[', ']', '!', '-'] : List Char)) := by
    rw [List.any_eq_true]
    exact exists_congr fun c => and_congr_right fun _ => by
      simp [mdCharTest, or_assoc]
  have h2 : containsStr (toStr "```") m = true ↔ ∃ a b, m = a ++ toStr "```" ++ b :=
    containsStr_iff
  have h3 : containsStr (toStr "> ") m = true ↔ ∃ a b, m = a ++ toStr "> " ++ b :=
    containsStr_iff
  have h4 := orderedDetect_iff m
  have h5 : containsStr (toStr "http://") m = true ↔ ∃ a b, m = a ++ toStr "http://" ++ b :=
    containsStr_iff
  have h6 : containsStr (toStr "https://") m = true ↔ ∃ a b, m = a ++ toStr "https://" ++ b :=
    containsStr_iff
  unfold hasMarkdown
  simp only [Bool.or_eq_true]
  rw [h1, h2, h3, h4, h5, h6]
  simp [or_assoc]

/-! ### The block segmenter's branch dispatch -/

theorem strStarts_head_ne {d c : Char} {ds cs : Str} (hne : d ≠ c) :
    strStarts (d :: ds) (c :: cs) = false := by
  simp [strStarts, beq_iff_eq, hne]

theorem strStarts_disjoint {c d : Char} {cs ds line : Str}
    (h : strStarts (c :: cs) line = true) (hne : d ≠ c) :
    strStarts (d :: ds) line = false := by
  obtain ⟨r, rfl⟩ := strStarts_iff.mp h
  rw [List.cons_append]
  exact strStarts_head_ne hne

theorem ne_of_isDigit {c d : Char} (hc : c.isDigit = true) (hd : d.isDigit = false) :
    d ≠ c := by
  intro heq
  rw [heq, hc] at hd
  cases hd

/-- Claim C3 (counterexample): the closing-fence test is `startsWith`, not
exact equality.  On the message with lines `` ``` ``, `a`, `` ```x ``, `b` the
claim predicts a single unterminated code block holding all three remaining
lines, but the code stops collecting at `` ```x `` (which merely *starts* with
the marker), emits `CodeBlock ["a"]`, skips `` ```x ``, and parses `b` as a
paragraph. -/
theorem fenceCollect_cex :
    parseMarkdown (toStr "```\na\n```x\nb") =
        [Segment.codeBlock [toStr "a"], Segment.paragraph [Inline.plain (toStr "b")]] ∧
      parseMarkdown (toStr "```\na\n```x\nb") ≠
        [Segment.codeBlock [toStr "a", toStr "```x", toStr "b"]] := by
  constructor
  · decide
  · decide

/-- Claim C3 (amended): a line beginning with the three-backtick marker starts
code collection; all subsequent lines are collected verbatim until a line that
*begins with* (not: is exactly equal to) the marker, one CodeBlock with the
collected lines is emitted, and the cursor advances past the closing fence if
present; when no remaining line begins with the marker the block absorbs all
remaining lines without error. -/
theorem fenceCollect (f : Nat) (line : Str) (rest : List Str) (h : fenceTest line = true) :
    segGoE 0 (f + 1) (line :: rest) =
        Segment.codeBlock (rest.takeWhile fun l => !fenceTest l) ::
          segGoE 0 f ((rest.dropWhile fun l => !fenceTest l).drop 1) ∧
      ((rest.all fun l => !fenceTest l) = true →
        segGoE 0 (f + 1) (line :: rest) = [Segment.codeBlock rest]) := by
  have hb : strStarts ('`' :: ['`', '`']) line = true := h
  have e1 : strStarts (toStr "# ") line = false := strStarts_disjoint hb (by decide)
  have e2 : strStarts (toStr "## ") line = false := strStarts_disjoint hb (by decide)
  have e3 : strStarts (toStr "### ") line = false := strStarts_disjoint hb (by decide)
  constructor
  · simp [segGoE, e1, e2, e3, h, collectCode_eq]
  · intro hall
    have hall' : ∀ l ∈ rest, (!fenceTest l) = true := List.all_eq_true.mp hall
    simp [segGoE, e1, e2, e3, h, collectCode_eq, takeWhile_all _ hall',
      dropWhile_all _ hall', segGoE_nil]

/-- Claim C3 (amended) witness: an unterminated fence over one content line. -/
theorem fenceCollect_witness :
    fenceTest (toStr "```") = true ∧
      (segGoE 0 4 [toStr "```", toStr "a"] =
          Segment.codeBlock ([toStr "a"].takeWhile fun l => !fenceTest l) ::
            segGoE 0 3 (([toStr "a"].dropWhile fun l => !fenceTest l).drop 1) ∧
        (([toStr "a"].all fun l => !fenceTest l) = true →
          segGoE 0 4 [toStr "```", toStr "a"] = [Segment.codeBlock [toStr "a"]])) :=
  ⟨by decide, fenceCollect 3 (toStr "```") [toStr "a"] (by decide)⟩

/-- Claim C8 (counterexample): the blockquote branch renders the remainder
after the marker as literal text and does not feed it through the inline
resolver: `"> *b*"` becomes a Blockquote whose content is the raw string
`"*b*"`, delimiters included, although inline resolution of `"*b*"` would
produce a single italic span. -/
theorem blockquoteLiteral_cex :
    parseMarkdown (toStr "> *b*") = [Segment.blockquote (toStr "*b*")] ∧
      parseTextWithFormatting (toStr "*b*") = [Inline.styled (toStr "b") EmphKind.italic] := by
  constructor
  · decide
  · decide

/-- Claim C8 (amended): for every line beginning with `"> "`, the segmenter
emits a Blockquote segment carrying the remainder after the marker as literal
text — blockquotes, like headings and code blocks, bypass inline resolution;
only bullet items, ordered items and paragraphs feed the inline resolver. -/
theorem blockquoteLiteral (f : Nat) (line : Str) (rest : List Str)
    (h : strStarts (toStr "> ") line = true) :
    segGoE 0 (f + 1) (line :: rest) = Segment.blockquote (line.drop 2) :: segGoE 0 f rest := by
  have hb : strStarts ('>' :: [' ']) line = true := h
  have e1 : strStarts (toStr "# ") line = false := strStarts_disjoint hb (by decide)
  have e2 : strStarts (toStr "## ") line = false := strStarts_disjoint hb (by decide)
  have e3 : strStarts (toStr "### ") line = false := strStarts_disjoint hb (by decide)
  have e4 : fenceTest line = false := strStarts_disjoint hb (by decide)
  simp [segGoE, e1, e2, e3, e4, h]

/-- Claim C8 (amended) witness. -/
theorem blockquoteLiteral_witness :
    strStarts (toStr "> ") (toStr "> x") = true ∧
      segGoE 0 1 [toStr "> x"] =
        Segment.blockquote ((toStr "> x").drop 2) :: segGoE 0 0 [] :=
  ⟨by decide, blockquoteLiteral 0 (toStr "> x") [] (by decide)⟩

/-- Claim C6 (counterexample): a line can match the detection regex
`^\d+\.\s` yet fail the capture regex `^(\d+)\.\s(.*)$` — e.g. `"1. x\r"`,
whose carriage return cannot be matched by `.` and blocks `$`.  Such a line
yields no segment at all, so not every line matching the detection regex
yields an ordered ListItem, and not every line yields exactly one segment. -/
theorem orderedLine_cex :
    orderedDetect (toStr "1. x\r") = true ∧ parseMarkdown (toStr "1. x\r") = [] := by
  constructor
  · decide
  · decide

/-- Claim C6 (amended): a line matching the ordered-list detection regex (and
hence no earlier branch) yields exactly one ListItem(ordered) segment with
ordinal the captured digits and text the remainder after the matched prefix —
provided the line also matches the capture regex; a line matching only the
detection regex (its remainder containing a line terminator such as a carriage
return) is silently dropped, yielding no segment.  All other lines follow the
stated priority order, one segment per line, except fenced code. -/
theorem orderedLine (f : Nat) (line : Str) (rest : List Str)
    (hdet : orderedDetect line = true) :
    segGoE 0 (f + 1) (line :: rest) =
      (match orderedCapture line with
       | some (d, t) => [Segment.orderedItem d (parseInlineMarkdown t)]
       | none => []) ++ segGoE 0 f rest := by
  have hhead : ∃ c cs, line = c :: cs ∧ c.isDigit = true := by
    unfold orderedDetect at hdet
    simp only [Bool.and_eq_true] at hdet
    obtain ⟨h1, _⟩ := hdet
    cases line with
    | nil => simp at h1
    | cons c cs =>
      rw [List.takeWhile_cons] at h1
      by_cases hc : c.isDigit
      · exact ⟨c, cs, rfl, hc⟩
      · rw [if_neg hc] at h1
        simp at h1
  obtain ⟨c, cs, rfl, hc⟩ := hhead
  have e1 : strStarts (toStr "# ") (c :: cs) = false :=
    strStarts_head_ne (ne_of_isDigit hc (by decide))
  have e2 : strStarts (toStr "## ") (c :: cs) = false :=
    strStarts_head_ne (ne_of_isDigit hc (by decide))
  have e3 : strStarts (toStr "### ") (c :: cs) = false :=
    strStarts_head_ne (ne_of_isDigit hc (by decide))
  have e4 : fenceTest (c :: cs) = false :=
    strStarts_head_ne (ne_of_isDigit hc (by decide))
  have e5 : strStarts (toStr "> ") (c :: cs) = false :=
    strStarts_head_ne (ne_of_isDigit hc (by decide))
  have e6 : strStarts (toStr "- ") (c :: cs) = false :=
    strStarts_head_ne (ne_of_isDigit hc (by decide))
  have e7 : strStarts (toStr "* ") (c :: cs) = false :=
    strStarts_head_ne (ne_of_isDigit hc (by decide))
  cases hcap : orderedCapture (c :: cs) with
  | some p =>
    obtain ⟨d, t⟩ := p
    simp [segGoE, e1, e2, e3, e4, e5, e6, e7, hdet, hcap, parseInlineMarkdown]
  | none =>
    simp [segGoE, e1, e2, e3, e4, e5, e6, e7, hdet, hcap]

/-- Claim C6 (amended) witness at the ordered line `"2. hi"`. -/
theorem orderedLine_witness :
    orderedDetect (toStr "2. hi") = true ∧
      segGoE 0 1 [toStr "2. hi"] =
        (match orderedCapture (toStr "2. hi") with
         | some (d, t) => [Segment.orderedItem d (parseInlineMarkdown t)]
         | none => []) ++ segGoE 0 0 [] :=
  ⟨by decide, orderedLine 0 (toStr "2. hi") [] (by decide)⟩

end ChatBubble
